import Mathlib

/-!
Verification development for the RapidVideOCR subtitle-extraction engine
(`rapid_videocr/rapid_videocr.py`).

The key-frame segmenter (`get_key_frames`), the consolidator
(`get_subtitles`), the OCR filtering step (`run_ocr`, `remove_invalid`)
and the time-string interface (`convert_time_to_frame`,
`_get_range_frame`) are embedded as executable Lean functions.  External
collaborators (video frames, pixel preprocessing, the OCR engine) are
abstracted as parameters; the two small helpers of the absent `utils`
module (`calc_l2_dis_frames`, `calc_str_similar`,
`convert_frame_to_time`) are modelled from the specification where a
claim needs them concretely.
-/

/-- Python list slicing `xs[:k]` for a possibly negative `k`:
a nonnegative `k` keeps the first `k` elements, a negative `k` drops the
last `-k` elements. -/
def pyTake {α : Type} (xs : List α) (k : ℤ) : List α :=
  if 0 ≤ k then xs.take k.toNat else xs.take (xs.length - (-k).toNat)

/-- Python `int()` on a rational: truncation toward zero. -/
def pyInt (q : ℚ) : ℤ := q.num.tdiv q.den

/-- State of the scan loop of `RapidVideOCR.get_key_frames`
(lines 93-151): the insertion-ordered key list of the `key_frames`
dict, the insertion-ordered `duplicate_frames` dict as an association
list, and the loop variables `cur_idx`, `next_idx`, `batch_size`. -/
structure SegState where
  keys : List ℕ
  dups : List (ℕ × List ℕ)
  curIdx : ℕ
  nextIdx : ℕ
  batchSize : ℕ
deriving DecidableEq

/-- `duplicate_frames.setdefault(k, []).extend(xs)`: extend the entry of
key `k` in insertion order, creating it at the end if absent. -/
def dupExtend (k : ℕ) (xs : List ℕ) : List (ℕ × List ℕ) → List (ℕ × List ℕ)
  | [] => [(k, xs)]
  | p :: rest => if p.1 = k then (p.1, p.2 ++ xs) :: rest else p :: dupExtend k xs rest

/-- `if cur_idx not in key_frames: key_frames[cur_idx] = ...` (key order
only; the stored images are irrelevant to the claims). -/
def keyAdd (k : ℕ) (keys : List ℕ) : List ℕ :=
  if k ∈ keys then keys else keys ++ [k]

/-- The window clamp of lines 147-148: if the loop is not done and the
next batch would overrun `end_idx`, shrink it to the remaining range. -/
def clampWindow (endIdx : ℕ) (st : SegState) : SegState :=
  if st.nextIdx ≠ endIdx ∧ st.nextIdx + st.batchSize > endIdx then
    { st with batchSize := endIdx - st.nextIdx }
  else st

/-- One iteration of the scan loop (lines 101-150).  `sim c j` abstracts
`calc_l2_dis_frames`: whether frame `j` is classified a duplicate of the
reference frame `c` (distance score `<= error_thr`).  The body compares
the batch `[next_idx, next_idx + batch_size)` against the reference,
then either extends the current run by the whole batch (fast path) or by
the slice `next_batch_idxs[:first_dissimilar_idx - cur_idx]` and starts
a new run at the first dissimilar index; finally the window is clamped
to the remaining range. -/
def segStep (sim : ℕ → ℕ → Bool) (endIdx : ℕ) (st : SegState) : SegState :=
  clampWindow endIdx
    (match (List.range' st.nextIdx st.batchSize).filter
        (fun j => ! sim st.curIdx j) with
    | [] =>
      { st with nextIdx := st.nextIdx + st.batchSize,
                dups := dupExtend st.curIdx (List.range' st.nextIdx st.batchSize) st.dups,
                keys := keyAdd st.curIdx st.keys }
    | d :: _ =>
      { st with dups := dupExtend st.curIdx
                  (pyTake (List.range' st.nextIdx st.batchSize)
                    ((d : ℤ) - (st.curIdx : ℤ))) st.dups,
                keys := keyAdd st.curIdx st.keys,
                curIdx := d,
                nextIdx := d + 1 })

/-- The scan loop `while next_idx + batch_size <= end_idx`, with fuel
(the source loop can fail to terminate, see the `endIdx = 1` theorems). -/
def segLoop (sim : ℕ → ℕ → Bool) (endIdx : ℕ) : ℕ → SegState → Option SegState
  | 0, _ => none
  | fuel + 1, st =>
    if st.nextIdx + st.batchSize ≤ endIdx then
      segLoop sim endIdx fuel (segStep sim endIdx st)
    else some st

/-- Initialization of the scan (lines 96-99):
`batch_size = end_idx - 1 if self.batch_size > end_idx else self.batch_size`
and `cur_idx, next_idx = start_idx, 1`. -/
def segInit (startIdx endIdx B : ℕ) : SegState :=
  ⟨[], [], startIdx, 1, if B > endIdx then endIdx - 1 else B⟩

/-- `RapidVideOCR.get_key_frames` on the scan range
`[startIdx, endIdx)` with configured initial batch size `B`. -/
def get_key_frames (sim : ℕ → ℕ → Bool) (startIdx endIdx B fuel : ℕ) :
    Option SegState :=
  segLoop sim endIdx fuel (segInit startIdx endIdx B)

/-- Totalize an optional scan result (used to state closed facts about a
run that did complete). -/
def segResult (o : Option SegState) : SegState := o.getD ⟨[], [], 0, 0, 0⟩

/-- Frame index `i` is recorded by the scan state, either as a key or
inside some run's duplicate-index list. -/
def coveredIn (st : SegState) (i : ℕ) : Prop :=
  i ∈ st.keys ∨ ∃ p ∈ st.dups, i ∈ p.2

instance (st : SegState) (i : ℕ) : Decidable (coveredIn st i) := by
  unfold coveredIn; infer_instance

/-- `duplicate_frames[k]` with a default (the key is always present at
the call sites considered). -/
def lookupD (l : List (ℕ × List ℕ)) (k : ℕ) : List ℕ :=
  match l.find? (fun p => p.1 == k) with
  | some p => p.2
  | none => []

/-- Modelled from the spec: the duplicate classification of
`calc_l2_dis_frames` (in the absent `utils` module) for concrete
scenario A — frames 0-4 are pixel-identical, frames 5-9 are
pixel-identical to each other but distant from frames 0-4, so with
`error_thr = 0.1` two frames are duplicates exactly when they lie in the
same group. -/
def simGroup (c j : ℕ) : Bool := decide (c < 5) == decide (j < 5)

/-- Modelled from the spec: a duplicate classifier under which every
pair of frames is a duplicate (distance score 0 on identical frames). -/
def simAll (_ _ : ℕ) : Bool := true

/-- Fuel-indexed longest-common-subsequence length (structural in the
fuel so that concrete instances evaluate in the kernel). -/
def lcsLenF : ℕ → List Char → List Char → ℕ
  | 0, _, _ => 0
  | _ + 1, [], _ => 0
  | _ + 1, _, [] => 0
  | f + 1, a :: as, b :: bs =>
    if a = b then lcsLenF f as bs + 1
    else max (lcsLenF f (a :: as) bs) (lcsLenF f as (b :: bs))

/-- Modelled from the spec: `calc_str_similar` of the absent `utils`
module — a normalized text-similarity ratio in `[0,1]`, edit-distance
based, `1` on identical strings, near `0` on disjoint ones, and `0.8` on
`"HELLO"` vs `"HELL0"`: the Ratcliff-Obershelp style ratio
`2*M / (len1 + len2)` with `M` the longest common subsequence length. -/
def calc_str_similar (s t : String) : ℚ :=
  let a := s.data
  let b := t.data
  if a.length + b.length = 0 then 1
  else mkRat (2 * lcsLenF (a.length + b.length) a b) (a.length + b.length)

/-- Modelled from the spec: `convert_frame_to_time` of the absent
`utils` module produces, for frame index `v` at the given `fps`, the
exact seconds value `v / fps` (the `HH:MM:SS,mmm` rendering belongs to
the export collaborator). -/
def frameTime (fps : ℕ) (v : ℕ) : ℚ := mkRat v fps

/-- State of the merge sweep of `get_subtitles` (lines 195-213):
the mutated `duplicate_frames`, the `invalid_keys` positions and
`cur_idx`. -/
structure ConsState where
  dups : List (ℕ × List ℕ)
  invalid : List ℕ
  curIdx : ℕ
deriving DecidableEq

/-- One iteration of the sweep at position `nxt` (lines 200-213): if the
text-similarity ratio between `frames_ocr_res[cur_idx]` and
`frames_ocr_res[next_idx]` exceeds the threshold, run `next_idx`'s
duplicate list is appended to run `cur_idx`'s and `next_idx` is marked
invalid; otherwise `cur_idx` moves to `next_idx`. -/
def consStep (sim : String → String → ℚ) (thr : ℚ) (texts : List String)
    (keys : List ℕ) (st : ConsState) (nxt : ℕ) : ConsState :=
  if sim (texts.getD st.curIdx "") (texts.getD nxt "") > thr then
    { st with dups := dupExtend (keys.getD st.curIdx 0)
                (lookupD st.dups (keys.getD nxt 0)) st.dups,
              invalid := st.invalid ++ [nxt] }
  else
    { st with curIdx := nxt }

/-- The sweep `while next_idx < n` of `get_subtitles`, folding over
`next_idx = 1, …, n-1` with `keys = list(duplicate_frames)` captured
once at entry. -/
def consSweep (sim : String → String → ℚ) (thr : ℚ) (texts : List String)
    (dups : List (ℕ × List ℕ)) : ConsState :=
  (List.range' 1 (texts.length - 1)).foldl
    (consStep sim thr texts (dups.map Prod.fst)) ⟨dups, [], 0⟩

/-- The output loop of `get_subtitles` (lines 215-222): enumerate the
(dict-ordered) runs, skip invalidated positions, sort each surviving
run's index list and emit `[key, start_time, end_time, text]`. -/
def extractAux (timeF : ℕ → ℚ) (texts : List String) (invalid : List ℕ) :
    ℕ → List (ℕ × List ℕ) → List (ℕ × ℚ × ℚ × String)
  | _, [] => []
  | i, p :: rest =>
    if i ∈ invalid then extractAux timeF texts invalid (i + 1) rest
    else
      let v := List.insertionSort (· ≤ ·) p.2
      (p.1, timeF (v.headD 0), timeF (v.getLastD 0), texts.getD i "") ::
        extractAux timeF texts invalid (i + 1) rest

/-- `RapidVideOCR.get_subtitles` (lines 187-223), with the
text-similarity metric and the frame-to-time conversion as parameters
and `str_similar_ratio` as `thr`. -/
def get_subtitles (sim : String → String → ℚ) (thr : ℚ) (timeF : ℕ → ℚ)
    (texts : List String) (dups : List (ℕ × List ℕ)) :
    List (ℕ × ℚ × ℚ × String) :=
  let st := consSweep sim thr texts dups
  extractAux timeF texts st.invalid 0 st.dups

/-- `RapidVideOCR.run_ocr` (lines 154-170), with the recognizer's
output for each key frame given as data: runs whose recognized line
list is empty go to `invalid_keys`, the others contribute their lines
joined by a newline, in order. -/
def run_ocr (ocr : List (ℕ × List String)) : List String × List ℕ :=
  ocr.foldl
    (fun acc p =>
      if p.2.isEmpty then (acc.1, acc.2 ++ [p.1])
      else (acc.1 ++ [String.intercalate "\n" p.2], acc.2))
    ([], [])

/-- `RapidVideOCR.remove_invalid` (lines 182-185). -/
def remove_invalid (dups : List (ℕ × List ℕ)) (invalid : List ℕ) :
    List (ℕ × List ℕ) :=
  dups.filter (fun p => decide (p.1 ∉ invalid))

/-- Python `time_str.split(':')`: the chunks of the character list
between occurrences of `':'` (empty chunks included). -/
def splitOnColon : List Char → List (List Char)
  | [] => [[]]
  | c :: rest =>
    match splitOnColon rest with
    | [] => [[]]
    | part :: parts =>
      if c = ':' then [] :: part :: parts else (c :: part) :: parts

/-- `RapidVideOCR.convert_time_to_frame` (lines 68-85), with the float
parser as a parameter `p` (numbers are modelled as rationals): an empty
string yields frame 0; otherwise the string is split on `:`; a
non-numeric part raises; three parts are hours:minutes:seconds and two
parts minutes:seconds, any other count raises; the result is
`int(td.total_seconds() * fps)`. -/
def convert_time_to_frame (p : List Char → Option ℚ) (timeStr : String)
    (fps : ℤ) : Except String ℤ :=
  if timeStr = "" then .ok 0
  else
    match (splitOnColon timeStr.data).mapM p with
    | none => .error "could not convert string to float"
    | some parts =>
      match parts with
      | [h, m, s] => .ok (pyInt ((h * 3600 + m * 60 + s) * (fps : ℚ)))
      | [m, s] => .ok (pyInt ((m * 60 + s) * (fps : ℚ)))
      | _ => .error "Time data does not match format %H:%M:%S"

/-- `RapidVideOCR._get_range_frame` (lines 255-263): the start index
from `time_start`, the end index `num_frames - 1` unless `time_end` is
nonempty, and a `ValueError` when `end_idx < start_idx`. -/
def get_range_frame (p : List Char → Option ℚ) (timeStart timeEnd : String)
    (fps : ℤ) (numFrames : ℤ) : Except String (ℤ × ℤ) :=
  match convert_time_to_frame p timeStart fps with
  | .error e => .error e
  | .ok s =>
    match
      (if timeEnd = "" then .ok (numFrames - 1)
       else convert_time_to_frame p timeEnd fps : Except String ℤ) with
    | .error e => .error e
    | .ok e =>
      if e < s then .error "time_start is later than time_end"
      else .ok (s, e)

/-- A sample numeric parser for witnesses: unsigned decimal integers. -/
def natParse (s : List Char) : Option ℚ :=
  if s.length ≠ 0 ∧ s.all Char.isDigit then
    some ((s.foldl (fun acc c => acc * 10 + (c.toNat - 48)) 0 : ℕ) : ℚ)
  else none

deriving instance DecidableEq for Except

/-- C2 counterexample: in concrete scenario A the claim expects run 0 to
have duplicate list `[1,2,3,4]`, but the completed scan records
`[1,2,3,4,5]` (the first distant frame 5 is also appended to run 0). -/
theorem c2_counterexample :
    lookupD (segResult (get_key_frames simGroup 0 10 100 12)).dups 0 ≠ [1, 2, 3, 4] ∧
    get_key_frames simGroup 0 10 100 12 ≠ none := by decide

/-- C2 amended: on the scan range `[0,10)` with frames 0-4 mutually
duplicate and frames 5-9 mutually duplicate but distant from the first
group, the scan produces exactly two runs, key 0 with duplicates
`[1,2,3,4,5]` and key 5 with duplicates `[6,7,8,9]`. -/
theorem c2_amended :
    get_key_frames simGroup 0 10 100 12 =
      some ⟨[0, 5], [(0, [1, 2, 3, 4, 5]), (5, [6, 7, 8, 9])], 5, 10, 4⟩ := by decide

/-- C1 counterexample: in the same completed scan, frame 5 is recorded
both as a key (of the second run) and inside run 0's duplicate-index
list, so the runs are not pairwise disjoint. -/
theorem c1_counterexample :
    5 ∈ (segResult (get_key_frames simGroup 0 10 100 12)).keys ∧
    5 ∈ lookupD (segResult (get_key_frames simGroup 0 10 100 12)).dups 0 ∧
    get_key_frames simGroup 0 10 100 12 ≠ none := by decide

/-- C3: the scan initialization at `startIdx = 5`, `endIdx = 10`,
`B = 100` sets `cur_idx = 5` but `next_idx = 1` (not `startIdx + 1 = 6`)
and window size `endIdx - 1 = 9` (not `min(B, endIdx - startIdx - 1) = 4`):
both `next_idx` and the window ignore `startIdx`. -/
theorem c3_init_ignores_start :
    (segInit 5 10 100).curIdx = 5 ∧ (segInit 5 10 100).nextIdx = 1 ∧
    (segInit 5 10 100).batchSize = 9 ∧
    (segInit 5 10 100).nextIdx ≠ 5 + 1 ∧
    (segInit 5 10 100).batchSize ≠ min 100 (10 - 5 - 1) := by decide

/-- C6: on the boundary range `endIdx = startIdx + 1 = 1` with the
default batch size 100, the initial window is `endIdx - 1 = 0`, the
guard `next_idx + batch_size <= end_idx` holds forever and the state
never changes, so the scan loop runs out of any amount of fuel: the
source loop does not terminate. -/
theorem c6_scan_diverges_on_single_frame_range (sim : ℕ → ℕ → Bool) :
    ∀ fuel : ℕ, segLoop sim 1 fuel (segInit 0 1 100) = none := by
  have hfix : ∀ fuel : ℕ,
      segLoop sim 1 fuel ⟨[0], [(0, [])], 0, 1, 0⟩ = none := by
    intro fuel
    induction fuel with
    | zero => rfl
    | succ n ih =>
      show segLoop sim 1 (n + 1) ⟨[0], [(0, [])], 0, 1, 0⟩ = none
      have hstep : segStep sim 1 ⟨[0], [(0, [])], 0, 1, 0⟩ =
          ⟨[0], [(0, [])], 0, 1, 0⟩ := rfl
      rw [segLoop, if_pos (by decide), hstep]
      exact ih
  intro fuel
  cases fuel with
  | zero => rfl
  | succ n =>
    have hstep : segStep sim 1 (segInit 0 1 100) = ⟨[0], [(0, [])], 0, 1, 0⟩ := rfl
    rw [segLoop, if_pos (by decide), hstep]
    exact hfix n

lemma pyInt_natCast (n : ℕ) : pyInt ((n : ℕ) : ℚ) = n := by
  simp [pyInt, Rat.num_natCast, Rat.den_natCast, Int.tdiv_one]

/-- C10: characterization of the time-string interface, for any numeric
parser `p`: the empty string maps to frame 0; three numeric parts are
read as hours:minutes:seconds and two as minutes:seconds, giving
`int(total_seconds * fps)`; any other part count (one, or four or more)
raises `ValueError`. -/
theorem c10_time_parsing (p : List Char → Option ℚ) (t : String) (fps : ℤ) :
    (t = "" → convert_time_to_frame p t fps = .ok 0) ∧
    (∀ h m s : ℚ, t ≠ "" → (splitOnColon t.data).mapM p = some [h, m, s] →
      convert_time_to_frame p t fps =
        .ok (pyInt ((h * 3600 + m * 60 + s) * (fps : ℚ)))) ∧
    (∀ m s : ℚ, t ≠ "" → (splitOnColon t.data).mapM p = some [m, s] →
      convert_time_to_frame p t fps = .ok (pyInt ((m * 60 + s) * (fps : ℚ)))) ∧
    (∀ parts : List ℚ, t ≠ "" → (splitOnColon t.data).mapM p = some parts →
      parts.length ≠ 3 → parts.length ≠ 2 →
      convert_time_to_frame p t fps =
        .error "Time data does not match format %H:%M:%S") := by
  refine ⟨?_, ?_, ?_, ?_⟩
  · intro h
    rw [convert_time_to_frame, if_pos h]
  · intro h m s hne hparts
    rw [convert_time_to_frame, if_neg hne, hparts]
  · intro m s hne hparts
    rw [convert_time_to_frame, if_neg hne, hparts]
  · intro parts hne hparts h3 h2
    rw [convert_time_to_frame, if_neg hne, hparts]
    match parts, h3, h2 with
    | [], _, _ => rfl
    | [a], _, _ => rfl
    | [a, b], _, h2 => exact absurd rfl h2
    | [a, b, c], h3, _ => exact absurd rfl h3
    | a :: b :: c :: d :: rest, _, _ => rfl

/-- C10 witness: concrete instances — `"1:02:03"` at `fps = 10` parses
as 1 h 2 min 3 s and yields frame 37230, the empty string yields frame
0, and `"5"` (one part) raises. -/
theorem c10_witness :
    ((splitOnColon "1:02:03".data).mapM natParse = some [1, 2, 3]) ∧
    convert_time_to_frame natParse "1:02:03" 10 = .ok 37230 ∧
    convert_time_to_frame natParse "" 10 = .ok 0 ∧
    convert_time_to_frame natParse "5" 10 =
      .error "Time data does not match format %H:%M:%S" := by
  have h1 : (splitOnColon "1:02:03".data).mapM natParse = some [1, 2, 3] := by decide
  have h2 := (c10_time_parsing natParse "1:02:03" 10).2.1 1 2 3 (by decide) h1
  have h3 := (c10_time_parsing natParse "" 10).1 rfl
  have h5 := (c10_time_parsing natParse "5" 10).2.2.2 [5] (by decide) (by decide)
    (by decide) (by decide)
  refine ⟨h1, ?_, h3, h5⟩
  rw [h2]
  have harith : ((1 : ℚ) * 3600 + 2 * 60 + 3) * ((10 : ℤ) : ℚ) = ((37230 : ℕ) : ℚ) := by
    norm_num
  rw [harith, pyInt_natCast]
  norm_num

lemma convert_eval_two (p : List Char → Option ℚ) (t : String) (m s : ℚ)
    (fps : ℤ) (hne : t ≠ "")
    (h : (splitOnColon t.data).mapM p = some [m, s]) :
    convert_time_to_frame p t fps = .ok (pyInt ((m * 60 + s) * (fps : ℚ))) := by
  unfold convert_time_to_frame
  rw [if_neg hne, h]

lemma convert_zero_ten : convert_time_to_frame natParse "0:10" 1 = .ok 10 := by
  have h := convert_eval_two natParse "0:10" 0 10 1 (by decide) (by decide)
  rw [h]
  have harith : ((0 : ℚ) * 60 + 10) * ((1 : ℤ) : ℚ) = ((10 : ℕ) : ℚ) := by norm_num
  rw [harith, pyInt_natCast]
  norm_num

lemma convert_zero_five : convert_time_to_frame natParse "0:05" 1 = .ok 5 := by
  have h := convert_eval_two natParse "0:05" 0 5 1 (by decide) (by decide)
  rw [h]
  have harith : ((0 : ℚ) * 60 + 5) * ((1 : ℤ) : ℚ) = ((5 : ℕ) : ℚ) := by norm_num
  rw [harith, pyInt_natCast]
  norm_num

/-- C5 counterexample: with `time_start = time_end = "0:10"` the derived
range has `endIdx = startIdx = 10`, yet `_get_range_frame` returns the
range successfully instead of failing: the check only rejects
`endIdx < startIdx`, not `endIdx <= startIdx`. -/
theorem c5_counterexample :
    get_range_frame natParse "0:10" "0:10" 1 999 = .ok (10, 10) ∧ (10 : ℤ) ≤ 10 := by
  refine ⟨?_, le_refl 10⟩
  unfold get_range_frame
  rw [convert_zero_ten, if_neg (show ¬("0:10" = "") by decide)]
  decide

/-- C5 amended: computing the scan range fails with a `ValueError`
exactly when the derived end index satisfies `endIdx < startIdx`; an
empty range `endIdx = startIdx` passes the check and scanning
proceeds. -/
theorem c5_amended (p : List Char → Option ℚ) (ts te : String) (fps nf s e : ℤ)
    (hs : convert_time_to_frame p ts fps = .ok s)
    (he : (if te = "" then Except.ok (nf - 1)
           else convert_time_to_frame p te fps) = .ok e) :
    get_range_frame p ts te fps nf =
      if e < s then .error "time_start is later than time_end"
      else .ok (s, e) := by
  unfold get_range_frame
  rw [hs, he]

/-- C5 witness: `time_start = "0:05"`, `time_end` empty, 3 frames at
`fps = 1` gives `startIdx = 5 > endIdx = 2` and the amended range check
raises. -/
theorem c5_witness :
    convert_time_to_frame natParse "0:05" 1 = .ok 5 ∧
    (if ("" : String) = "" then Except.ok ((3 : ℤ) - 1)
     else convert_time_to_frame natParse "" 1) = .ok 2 ∧
    get_range_frame natParse "0:05" "" 1 3 =
      .error "time_start is later than time_end" := by
  have he : (if ("" : String) = "" then Except.ok ((3 : ℤ) - 1)
      else convert_time_to_frame natParse "" 1) = .ok 2 := by decide
  have h := c5_amended natParse "0:05" "" 1 3 5 2 convert_zero_five he
  rw [if_pos (by decide)] at h
  exact ⟨convert_zero_five, he, h⟩

/-- C4 counterexample: for the two surviving runs `{0: [1]}`, `{10: [11]}`
with texts `"HELLO"` and `"HELL0"` (ratio `0.8 > 0.6`), the sweep merges
by appending only run 10's duplicate-index sequence `[11]` to run 0 —
the key index 10 itself is not appended, contradicting the claimed
"plus run[nextPos]'s key index". -/
theorem c4_counterexample :
    calc_str_similar "HELLO" "HELL0" = mkRat 4 5 ∧
    (mkRat 3 5 : ℚ) < mkRat 4 5 ∧
    consSweep calc_str_similar (mkRat 3 5) ["HELLO", "HELL0"] [(0, [1]), (10, [11])] =
      ⟨[(0, [1, 11]), (10, [11])], [1], 0⟩ ∧
    10 ∉ lookupD (consSweep calc_str_similar (mkRat 3 5) ["HELLO", "HELL0"]
      [(0, [1]), (10, [11])]).dups 0 := by decide

/-- C4 amended: whenever the similarity ratio of the texts at `curPos`
and `nextPos` exceeds the threshold, the consolidator appends exactly
run `nextPos`'s duplicate-index sequence (not its key index) to run
`curPos`'s sequence, marks `nextPos` invalid and leaves `curPos`
unchanged; in the HELLO/HELL0 scenario the output is a single entry
keyed 0 spanning from the first run's first duplicate to the second
run's last duplicate, with text `"HELLO"`. -/
theorem c4_amended :
    (∀ (sim : String → String → ℚ) (thr : ℚ) (texts : List String)
        (keys : List ℕ) (st : ConsState) (nxt : ℕ),
        sim (texts.getD st.curIdx "") (texts.getD nxt "") > thr →
        consStep sim thr texts keys st nxt =
          ⟨dupExtend (keys.getD st.curIdx 0) (lookupD st.dups (keys.getD nxt 0))
             st.dups,
           st.invalid ++ [nxt], st.curIdx⟩) ∧
    get_subtitles calc_str_similar (mkRat 3 5) (frameTime 30) ["HELLO", "HELL0"]
      [(0, [1]), (10, [11])] = [(0, mkRat 1 30, mkRat 11 30, "HELLO")] := by
  constructor
  · intro sim thr texts keys st nxt h
    unfold consStep
    rw [if_pos h]
  · decide

/-- C4 witness: the merge rule applied at the concrete HELLO/HELL0
state appends `[11]` to run 0, invalidates position 1 and keeps
`cur_idx = 0`. -/
theorem c4_witness :
    calc_str_similar "HELLO" "HELL0" > mkRat 3 5 ∧
    consStep calc_str_similar (mkRat 3 5) ["HELLO", "HELL0"] [0, 10]
      ⟨[(0, [1]), (10, [11])], [], 0⟩ 1 = ⟨[(0, [1, 11]), (10, [11])], [1], 0⟩ := by
  refine ⟨by decide, ?_⟩
  have h := c4_amended.1 calc_str_similar (mkRat 3 5) ["HELLO", "HELL0"] [0, 10]
    ⟨[(0, [1]), (10, [11])], [], 0⟩ 1 (by decide)
  rw [h]
  decide

lemma dupExtend_map_fst (k : ℕ) (xs : List ℕ) :
    ∀ l : List (ℕ × List ℕ), k ∈ l.map Prod.fst →
      (dupExtend k xs l).map Prod.fst = l.map Prod.fst := by
  intro l
  induction l with
  | nil => intro h; simp at h
  | cons p rest ih =>
    intro h
    rw [List.map_cons] at h
    by_cases hk : p.1 = k
    · simp [dupExtend, hk]
    · have hmem : k ∈ rest.map Prod.fst := by
        rcases List.mem_cons.mp h with h1 | h1
        · exact absurd h1.symm hk
        · exact h1
      simp [dupExtend, hk, ih hmem]

lemma consStep_fst (sim : String → String → ℚ) (thr : ℚ) (texts : List String)
    (keys0 : List ℕ) (st : ConsState) (nxt : ℕ)
    (hcur : st.curIdx < keys0.length)
    (hfst : st.dups.map Prod.fst = keys0) :
    (consStep sim thr texts keys0 st nxt).dups.map Prod.fst = keys0 ∧
    ((consStep sim thr texts keys0 st nxt).curIdx = st.curIdx ∨
      (consStep sim thr texts keys0 st nxt).curIdx = nxt) := by
  unfold consStep
  by_cases hsim : sim (texts.getD st.curIdx "") (texts.getD nxt "") > thr
  · rw [if_pos hsim]
    refine ⟨?_, Or.inl rfl⟩
    have hmem : keys0.getD st.curIdx 0 ∈ List.map Prod.fst st.dups := by
      rw [hfst, List.getD_eq_getElem keys0 0 hcur]
      exact List.getElem_mem hcur
    show (dupExtend (keys0.getD st.curIdx 0) _ st.dups).map Prod.fst = keys0
    rw [dupExtend_map_fst _ _ st.dups hmem, hfst]
  · rw [if_neg hsim]
    exact ⟨hfst, Or.inr rfl⟩

lemma consSweep_fold_fst (sim : String → String → ℚ) (thr : ℚ)
    (texts : List String) (keys0 : List ℕ) :
    ∀ (m k : ℕ) (st : ConsState),
      st.dups.map Prod.fst = keys0 → st.curIdx < k → k + m ≤ keys0.length →
      ((List.range' k m).foldl (consStep sim thr texts keys0) st).dups.map Prod.fst
        = keys0 := by
  intro m
  induction m with
  | zero => intro k st h _ _; simpa using h
  | succ n ih =>
    intro k st hfst hcur hlen
    rw [List.range'_succ, List.foldl_cons]
    have hstep := consStep_fst sim thr texts keys0 st k (by omega) hfst
    refine ih (k + 1) _ hstep.1 ?_ (by omega)
    rcases hstep.2 with h | h <;> omega

lemma consSweep_fst (sim : String → String → ℚ) (thr : ℚ)
    (texts : List String) (dups : List (ℕ × List ℕ))
    (hlen : dups.length = texts.length) :
    (consSweep sim thr texts dups).dups.map Prod.fst = dups.map Prod.fst := by
  unfold consSweep
  rcases Nat.eq_zero_or_pos texts.length with h0 | hpos
  · rw [h0]; rfl
  · exact consSweep_fold_fst sim thr texts (dups.map Prod.fst)
      (texts.length - 1) 1 ⟨dups, [], 0⟩ rfl Nat.zero_lt_one
      (by rw [List.length_map, hlen]; omega)

lemma extractAux_fst_mem (tf : ℕ → ℚ) (texts : List String) (inv : List ℕ) :
    ∀ (i : ℕ) (l : List (ℕ × List ℕ)) (e : ℕ × ℚ × ℚ × String),
      e ∈ extractAux tf texts inv i l → e.1 ∈ l.map Prod.fst := by
  intro i l
  induction l generalizing i with
  | nil => intro e h; simp [extractAux] at h
  | cons p rest ih =>
    intro e h
    unfold extractAux at h
    by_cases hmem : i ∈ inv
    · rw [if_pos hmem] at h
      exact List.mem_cons_of_mem _ (ih (i + 1) e h)
    · rw [if_neg hmem] at h
      rcases List.mem_cons.mp h with h1 | h1
      · rw [h1]; exact List.mem_cons_self _ _
      · exact List.mem_cons_of_mem _ (ih (i + 1) e h1)

lemma run_ocr_foldl (ocr : List (ℕ × List String)) :
    ∀ (a : List String) (b : List ℕ),
      ocr.foldl (fun acc p =>
          if p.2.isEmpty then (acc.1, acc.2 ++ [p.1])
          else (acc.1 ++ [String.intercalate "\n" p.2], acc.2)) (a, b)
      = (a ++ (ocr.filter (fun p => !p.2.isEmpty)).map
            (fun p => String.intercalate "\n" p.2),
         b ++ (ocr.filter (fun p => p.2.isEmpty)).map Prod.fst) := by
  induction ocr with
  | nil => intro a b; simp
  | cons p rest ih =>
    rcases p with ⟨key, lines⟩
    cases lines with
    | nil =>
      intro a b
      rw [List.foldl_cons]
      exact (ih a (b ++ [key])).trans (by simp)
    | cons x xs =>
      intro a b
      rw [List.foldl_cons]
      exact (ih (a ++ [String.intercalate "\n" (x :: xs)]) b).trans (by simp)

/-- C9: a run whose recognized text is empty is appended to
`invalid_keys` and contributes no line to `frames_ocr_res`; runs with
nonempty recognized text contribute their joined lines in order; after
`remove_invalid`, no subtitle entry of the final output carries an
invalidated key. -/
theorem c9_empty_text_filtering (ocr : List (ℕ × List String))
    (dups : List (ℕ × List ℕ)) (sim : String → String → ℚ) (thr : ℚ)
    (timeF : ℕ → ℚ)
    (hlen : (remove_invalid dups (run_ocr ocr).2).length = (run_ocr ocr).1.length) :
    ((run_ocr ocr).1 = (ocr.filter (fun p => !p.2.isEmpty)).map
        (fun p => String.intercalate "\n" p.2)) ∧
    ((run_ocr ocr).2 = (ocr.filter (fun p => p.2.isEmpty)).map Prod.fst) ∧
    (∀ k, k ∈ (run_ocr ocr).2 →
      k ∉ (get_subtitles sim thr timeF (run_ocr ocr).1
            (remove_invalid dups (run_ocr ocr).2)).map Prod.fst) := by
  have hsplit := run_ocr_foldl ocr [] []
  refine ⟨by rw [run_ocr, hsplit]; simp, by rw [run_ocr, hsplit]; simp, ?_⟩
  intro k hk hout
  rcases List.mem_map.mp hout with ⟨e, he, hfst⟩
  have hmem := extractAux_fst_mem timeF (run_ocr ocr).1
    (consSweep sim thr (run_ocr ocr).1 (remove_invalid dups (run_ocr ocr).2)).invalid
    0 _ e he
  rw [consSweep_fst sim thr _ _ hlen] at hmem
  rw [hfst] at hmem
  rcases List.mem_map.mp hmem with ⟨q, hq, hqfst⟩
  have hfil := List.of_mem_filter hq
  rw [hqfst] at hfil
  simp at hfil
  exact hfil hk

/-- C9 witness: with OCR results `HI` for key 0 and nothing for key 5,
key 5 is invalidated and absent from the final output while key 0's run
is retained. -/
theorem c9_witness :
    (remove_invalid [(0, [1]), (5, [6])] (run_ocr [(0, ["HI"]), (5, [])]).2).length
      = (run_ocr [(0, ["HI"]), (5, [])]).1.length ∧
    5 ∈ (run_ocr [(0, ["HI"]), (5, [])]).2 ∧
    5 ∉ (get_subtitles calc_str_similar (mkRat 3 5) (frameTime 30)
          (run_ocr [(0, ["HI"]), (5, [])]).1
          (remove_invalid [(0, [1]), (5, [6])] (run_ocr [(0, ["HI"]), (5, [])]).2)).map
        Prod.fst :=
  ⟨by decide, by decide,
    (c9_empty_text_filtering [(0, ["HI"]), (5, [])] [(0, [1]), (5, [6])]
      calc_str_similar (mkRat 3 5) (frameTime 30) (by decide)).2.2 5 (by decide)⟩

lemma range'_take : ∀ (n s m : ℕ), (List.range' s n).take m = List.range' s (min m n) := by
  intro n
  induction n with
  | zero => intro s m; simp
  | succ k ih =>
    intro s m
    cases m with
    | zero => simp
    | succ j =>
      rw [List.range'_succ, List.take_succ_cons, ih (s + 1) j, Nat.succ_min_succ,
        List.range'_succ]

lemma pyTake_nonneg {α : Type} (xs : List α) (k : ℤ) (h : 0 ≤ k) :
    pyTake xs k = xs.take k.toNat := by
  unfold pyTake
  rw [if_pos h]

lemma mem_keyAdd (k : ℕ) (keys : List ℕ) (i : ℕ) :
    i ∈ keyAdd k keys ↔ i ∈ keys ∨ i = k := by
  unfold keyAdd
  by_cases h : k ∈ keys
  · rw [if_pos h]
    constructor
    · exact Or.inl
    · rintro (hi | rfl)
      · exact hi
      · exact h
  · rw [if_neg h]
    simp

lemma dupExtend_cons_pos (k : ℕ) (xs : List ℕ) (q : ℕ × List ℕ)
    (rest : List (ℕ × List ℕ)) (h : q.1 = k) :
    dupExtend k xs (q :: rest) = (q.1, q.2 ++ xs) :: rest := by
  simp only [dupExtend, if_pos h]

lemma dupExtend_cons_neg (k : ℕ) (xs : List ℕ) (q : ℕ × List ℕ)
    (rest : List (ℕ × List ℕ)) (h : ¬q.1 = k) :
    dupExtend k xs (q :: rest) = q :: dupExtend k xs rest := by
  conv_lhs => rw [dupExtend]
  rw [if_neg h]

lemma inDups_dupExtend (k : ℕ) (xs : List ℕ) (i : ℕ) :
    ∀ l : List (ℕ × List ℕ),
      (∃ p ∈ dupExtend k xs l, i ∈ p.2) ↔ (∃ p ∈ l, i ∈ p.2) ∨ i ∈ xs := by
  intro l
  induction l with
  | nil => simp [dupExtend]
  | cons q rest ih =>
    by_cases hk : q.1 = k
    · rw [dupExtend_cons_pos k xs q rest hk]
      constructor
      · rintro ⟨p, hp, hi⟩
        rcases List.mem_cons.mp hp with rfl | h1
        · rcases List.mem_append.mp hi with h2 | h2
          · exact Or.inl ⟨q, List.mem_cons_self q rest, h2⟩
          · exact Or.inr h2
        · exact Or.inl ⟨p, List.mem_cons_of_mem q h1, hi⟩
      · rintro (⟨p, hp, hi⟩ | hx)
        · rcases List.mem_cons.mp hp with rfl | h1
          · exact ⟨(p.1, p.2 ++ xs), List.mem_cons_self _ _,
              List.mem_append.mpr (Or.inl hi)⟩
          · exact ⟨p, List.mem_cons_of_mem _ h1, hi⟩
        · exact ⟨(q.1, q.2 ++ xs), List.mem_cons_self _ _,
            List.mem_append.mpr (Or.inr hx)⟩
    · rw [dupExtend_cons_neg k xs q rest hk]
      constructor
      · rintro ⟨p, hp, hi⟩
        rcases List.mem_cons.mp hp with rfl | h1
        · exact Or.inl ⟨p, List.mem_cons_self _ _, hi⟩
        · rcases ih.mp ⟨p, h1, hi⟩ with ⟨p2, hp2, hi2⟩ | hx
          · exact Or.inl ⟨p2, List.mem_cons_of_mem _ hp2, hi2⟩
          · exact Or.inr hx
      · rintro (⟨p, hp, hi⟩ | hx)
        · rcases List.mem_cons.mp hp with rfl | h1
          · exact ⟨p, List.mem_cons_self _ _, hi⟩
          · rcases ih.mpr (Or.inl ⟨p, h1, hi⟩) with ⟨p2, hp2, hi2⟩
            exact ⟨p2, List.mem_cons_of_mem _ hp2, hi2⟩
        · rcases ih.mpr (Or.inr hx) with ⟨p2, hp2, hi2⟩
          exact ⟨p2, List.mem_cons_of_mem _ hp2, hi2⟩

lemma coveredIn_update (cur : ℕ) (xs : List ℕ) (st : SegState)
    (c2 n2 b2 : ℕ) (i : ℕ) :
    coveredIn ⟨keyAdd cur st.keys, dupExtend cur xs st.dups, c2, n2, b2⟩ i ↔
      coveredIn st i ∨ i = cur ∨ i ∈ xs := by
  show (i ∈ keyAdd cur st.keys ∨ ∃ p ∈ dupExtend cur xs st.dups, i ∈ p.2) ↔
    (i ∈ st.keys ∨ ∃ p ∈ st.dups, i ∈ p.2) ∨ i = cur ∨ i ∈ xs
  rw [mem_keyAdd, inDups_dupExtend]
  constructor
  · rintro ((h | h) | (h | h))
    · exact Or.inl (Or.inl h)
    · exact Or.inr (Or.inl h)
    · exact Or.inl (Or.inr h)
    · exact Or.inr (Or.inr h)
  · rintro ((h | h) | (h | h))
    · exact Or.inl (Or.inl h)
    · exact Or.inr (Or.inl h)
    · exact Or.inl (Or.inr h)
    · exact Or.inr (Or.inr h)

lemma coveredIn_clampWindow (e : ℕ) (st : SegState) (i : ℕ) :
    coveredIn (clampWindow e st) i ↔ coveredIn st i := by
  unfold clampWindow
  split
  · exact Iff.rfl
  · exact Iff.rfl

lemma clampWindow_curIdx (e : ℕ) (st : SegState) :
    (clampWindow e st).curIdx = st.curIdx := by
  unfold clampWindow; split <;> rfl

lemma clampWindow_nextIdx (e : ℕ) (st : SegState) :
    (clampWindow e st).nextIdx = st.nextIdx := by
  unfold clampWindow; split <;> rfl

lemma clampWindow_batch (e : ℕ) (st : SegState) (hnext : st.nextIdx ≤ e)
    (hb : 1 ≤ st.batchSize) :
    1 ≤ (clampWindow e st).batchSize ∧
    ((clampWindow e st).nextIdx = e ∨
      (clampWindow e st).nextIdx + (clampWindow e st).batchSize ≤ e) := by
  unfold clampWindow
  by_cases h : st.nextIdx ≠ e ∧ st.nextIdx + st.batchSize > e
  · rw [if_pos h]
    obtain ⟨h1, _⟩ := h
    constructor
    · show 1 ≤ e - st.nextIdx
      omega
    · right
      show st.nextIdx + (e - st.nextIdx) ≤ e
      omega
  · rw [if_neg h]
    refine ⟨hb, ?_⟩
    by_cases hne : st.nextIdx = e
    · exact Or.inl hne
    · right
      by_contra hgt
      exact h ⟨hne, by omega⟩

lemma segStep_inv (sim : ℕ → ℕ → Bool) (e : ℕ) (st : SegState)
    (hcn : st.curIdx < st.nextIdx) (_hnx : st.nextIdx ≤ e) (hb : 1 ≤ st.batchSize)
    (hguard : st.nextIdx + st.batchSize ≤ e)
    (hhigh : ∀ i, coveredIn st i → i < e) :
    (segStep sim e st).curIdx < (segStep sim e st).nextIdx ∧
    st.nextIdx < (segStep sim e st).nextIdx ∧
    (segStep sim e st).nextIdx ≤ e ∧
    1 ≤ (segStep sim e st).batchSize ∧
    ((segStep sim e st).nextIdx = e ∨
      (segStep sim e st).nextIdx + (segStep sim e st).batchSize ≤ e) ∧
    (∀ i, coveredIn st i → coveredIn (segStep sim e st) i) ∧
    (∀ i, st.nextIdx ≤ i → i < (segStep sim e st).nextIdx →
      coveredIn (segStep sim e st) i) ∧
    coveredIn (segStep sim e st) st.curIdx ∧
    coveredIn (segStep sim e st) (segStep sim e st).curIdx ∧
    (∀ i, coveredIn (segStep sim e st) i → i < e) := by
  cases hfil : (List.range' st.nextIdx st.batchSize).filter
      (fun j => ! sim st.curIdx j) with
  | nil =>
    have hstep : segStep sim e st = clampWindow e
        { st with nextIdx := st.nextIdx + st.batchSize,
                  dups := dupExtend st.curIdx
                    (List.range' st.nextIdx st.batchSize) st.dups,
                  keys := keyAdd st.curIdx st.keys } := by
      unfold segStep
      rw [hfil]
    rw [hstep]
    have hcb := clampWindow_batch e
      { st with nextIdx := st.nextIdx + st.batchSize,
                dups := dupExtend st.curIdx
                  (List.range' st.nextIdx st.batchSize) st.dups,
                keys := keyAdd st.curIdx st.keys }
      hguard hb
    refine ⟨?_, ?_, ?_, hcb.1, hcb.2, ?_, ?_, ?_, ?_, ?_⟩
    · rw [clampWindow_curIdx, clampWindow_nextIdx]
      show st.curIdx < st.nextIdx + st.batchSize
      omega
    · rw [clampWindow_nextIdx]
      show st.nextIdx < st.nextIdx + st.batchSize
      omega
    · rw [clampWindow_nextIdx]
      exact hguard
    · intro i hc
      rw [coveredIn_clampWindow]
      exact (coveredIn_update st.curIdx (List.range' st.nextIdx st.batchSize) st
        st.curIdx (st.nextIdx + st.batchSize) st.batchSize i).mpr (Or.inl hc)
    · intro i h1 h2
      rw [clampWindow_nextIdx] at h2
      rw [coveredIn_clampWindow]
      refine (coveredIn_update st.curIdx (List.range' st.nextIdx st.batchSize) st
        st.curIdx (st.nextIdx + st.batchSize) st.batchSize i).mpr
        (Or.inr (Or.inr ?_))
      rw [List.mem_range'_1]
      exact ⟨h1, h2⟩
    · rw [coveredIn_clampWindow]
      exact (coveredIn_update st.curIdx (List.range' st.nextIdx st.batchSize) st
        st.curIdx (st.nextIdx + st.batchSize) st.batchSize st.curIdx).mpr
        (Or.inr (Or.inl rfl))
    · rw [clampWindow_curIdx, coveredIn_clampWindow]
      exact (coveredIn_update st.curIdx (List.range' st.nextIdx st.batchSize) st
        st.curIdx (st.nextIdx + st.batchSize) st.batchSize st.curIdx).mpr
        (Or.inr (Or.inl rfl))
    · intro i hc
      rw [coveredIn_clampWindow] at hc
      rcases (coveredIn_update st.curIdx (List.range' st.nextIdx st.batchSize) st
        st.curIdx (st.nextIdx + st.batchSize) st.batchSize i).mp hc with h | h | h
      · exact hhigh i h
      · omega
      · rw [List.mem_range'_1] at h
        omega
  | cons d ds =>
    have hd : d ∈ List.range' st.nextIdx st.batchSize := by
      have hmem : d ∈ (List.range' st.nextIdx st.batchSize).filter
          (fun j => ! sim st.curIdx j) := by
        rw [hfil]
        exact List.mem_cons_self _ _
      exact List.mem_of_mem_filter hmem
    rw [List.mem_range'_1] at hd
    have hstep : segStep sim e st = clampWindow e
        { st with dups := dupExtend st.curIdx
                    (pyTake (List.range' st.nextIdx st.batchSize)
                      ((d : ℤ) - (st.curIdx : ℤ))) st.dups,
                  keys := keyAdd st.curIdx st.keys,
                  curIdx := d,
                  nextIdx := d + 1 } := by
      unfold segStep
      rw [hfil]
    have htake : pyTake (List.range' st.nextIdx st.batchSize)
        ((d : ℤ) - (st.curIdx : ℤ)) =
        List.range' st.nextIdx (min (d - st.curIdx) st.batchSize) := by
      rw [pyTake_nonneg _ _ (by omega : (0 : ℤ) ≤ (d : ℤ) - (st.curIdx : ℤ))]
      have ht : ((d : ℤ) - (st.curIdx : ℤ)).toNat = d - st.curIdx := by omega
      rw [ht, range'_take]
    rw [hstep]
    have hcb := clampWindow_batch e
      { st with dups := dupExtend st.curIdx
                  (pyTake (List.range' st.nextIdx st.batchSize)
                    ((d : ℤ) - (st.curIdx : ℤ))) st.dups,
                keys := keyAdd st.curIdx st.keys,
                curIdx := d,
                nextIdx := d + 1 }
      (by show d + 1 ≤ e; omega) hb
    refine ⟨?_, ?_, ?_, hcb.1, hcb.2, ?_, ?_, ?_, ?_, ?_⟩
    · rw [clampWindow_curIdx, clampWindow_nextIdx]
      show d < d + 1
      omega
    · rw [clampWindow_nextIdx]
      show st.nextIdx < d + 1
      omega
    · rw [clampWindow_nextIdx]
      show d + 1 ≤ e
      omega
    · intro i hc
      rw [coveredIn_clampWindow]
      exact (coveredIn_update st.curIdx _ st d (d + 1) st.batchSize i).mpr
        (Or.inl hc)
    · intro i h1 h2
      rw [clampWindow_nextIdx] at h2
      rw [coveredIn_clampWindow]
      refine (coveredIn_update st.curIdx _ st d (d + 1) st.batchSize i).mpr
        (Or.inr (Or.inr ?_))
      rw [htake, List.mem_range'_1]
      have h2s : i < d + 1 := h2
      omega
    · rw [coveredIn_clampWindow]
      exact (coveredIn_update st.curIdx _ st d (d + 1) st.batchSize st.curIdx).mpr
        (Or.inr (Or.inl rfl))
    · rw [clampWindow_curIdx, coveredIn_clampWindow]
      refine (coveredIn_update st.curIdx _ st d (d + 1) st.batchSize d).mpr
        (Or.inr (Or.inr ?_))
      rw [htake, List.mem_range'_1]
      omega
    · intro i hc
      rw [coveredIn_clampWindow] at hc
      rcases (coveredIn_update st.curIdx _ st d (d + 1) st.batchSize i).mp hc
        with h | h | h
      · exact hhigh i h
      · omega
      · rw [htake, List.mem_range'_1] at h
        omega

/-- Loop invariant of the scan: the window always fits (or the scan is
done), every index below `next_idx` is recorded or is the pending
reference index, and everything recorded lies below `end_idx`. -/
def segInv (e : ℕ) (st : SegState) : Prop :=
  st.curIdx < st.nextIdx ∧ st.nextIdx ≤ e ∧ 1 ≤ st.batchSize ∧
  (st.nextIdx = e ∨ st.nextIdx + st.batchSize ≤ e) ∧
  (∀ i, i < st.nextIdx → coveredIn st i ∨ i = st.curIdx) ∧
  (∀ i, coveredIn st i → i < e) ∧
  (coveredIn st st.curIdx ∨ st.nextIdx = 1)

lemma segLoop_run (sim : ℕ → ℕ → Bool) (e : ℕ) :
    ∀ (fuel : ℕ) (st : SegState), segInv e st → e - st.nextIdx < fuel →
      ∃ st2, segLoop sim e fuel st = some st2 ∧ st2.nextIdx = e ∧ segInv e st2 := by
  intro fuel
  induction fuel with
  | zero => intro st _ h; omega
  | succ n ih =>
    intro st hinv hfuel
    obtain ⟨h1, h2, h3, h4, h5, h6, h7⟩ := hinv
    by_cases hg : st.nextIdx + st.batchSize ≤ e
    · obtain ⟨s1, s2, s3, s4, s5, s6, s7, s8, s9, s10⟩ :=
        segStep_inv sim e st h1 h2 h3 hg h6
      rw [segLoop, if_pos hg]
      refine ih (segStep sim e st) ⟨s1, s3, s4, s5, ?_, s10, Or.inl s9⟩ (by omega)
      intro i hi
      by_cases hlow : i < st.nextIdx
      · rcases h5 i hlow with hc | hc
        · exact Or.inl (s6 i hc)
        · exact Or.inl (hc ▸ s8)
      · exact Or.inl (s7 i (by omega) hi)
    · have hnexte : st.nextIdx = e := by
        rcases h4 with h | h
        · exact h
        · omega
      exact ⟨st, by rw [segLoop, if_neg hg], hnexte,
        h1, h2, h3, h4, h5, h6, h7⟩

/-- C1 amended: for a scan of `[0, endIdx)` with `endIdx >= 2` and
initial batch size `B >= 1`, `B ≠ endIdx`, the scan terminates and the
union of all runs' key indices and duplicate-index sequences equals
exactly the set of frame indices in `[0, endIdx)`; pairwise disjointness
of the runs does not hold (see the counterexample: the first dissimilar
frame of a batch is recorded both as the last duplicate of the previous
run and as the next run's key), and for `startIdx > 0` or `B = endIdx`
even the union property fails. -/
theorem c1_amended (sim : ℕ → ℕ → Bool) (e B : ℕ)
    (h2 : 2 ≤ e) (hB : 1 ≤ B) (hBe : B ≠ e) :
    ∃ st, get_key_frames sim 0 e B (e + 2) = some st ∧
      ∀ i, coveredIn st i ↔ i < e := by
  have hb0 : 1 ≤ (segInit 0 e B).batchSize ∧
      (segInit 0 e B).nextIdx + (segInit 0 e B).batchSize ≤ e := by
    unfold segInit
    by_cases h : B > e
    · rw [if_pos h]
      exact ⟨by show 1 ≤ e - 1; omega, by show 1 + (e - 1) ≤ e; omega⟩
    · rw [if_neg h]
      exact ⟨by show 1 ≤ B; omega, by show 1 + B ≤ e; omega⟩
  have hinv0 : segInv e (segInit 0 e B) := by
    refine ⟨?_, ?_, hb0.1, Or.inr hb0.2, ?_, ?_, Or.inr rfl⟩
    · show 0 < 1
      omega
    · show 1 ≤ e
      omega
    · intro i hi
      right
      have hi1 : i < 1 := hi
      show i = 0
      omega
    · intro i hc
      have : i ∈ ([] : List ℕ) ∨ ∃ p ∈ ([] : List (ℕ × List ℕ)), i ∈ p.2 := hc
      simp at this
  obtain ⟨st2, hrun, hnext, hinv2⟩ :=
    segLoop_run sim e (e + 2) (segInit 0 e B) hinv0 (by show e - 1 < e + 2; omega)
  refine ⟨st2, hrun, ?_⟩
  obtain ⟨g1, g2, g3, g4, g5, g6, g7⟩ := hinv2
  intro i
  constructor
  · exact g6 i
  · intro hi
    have hcur : coveredIn st2 st2.curIdx := by
      rcases g7 with h | h
      · exact h
      · exfalso
        omega
    rcases g5 i (by omega) with hc | hc
    · exact hc
    · exact hc ▸ hcur

/-- C1 witness: the amended coverage theorem applied to the concrete
scan of `[0, 3)` with the all-duplicates classifier. -/
theorem c1_witness :
    (2 ≤ 3 ∧ 1 ≤ 100 ∧ 100 ≠ 3) ∧
    ∃ st, get_key_frames simAll 0 3 100 (3 + 2) = some st ∧
      ∀ i, coveredIn st i ↔ i < 3 :=
  ⟨⟨by decide, by decide, by decide⟩,
    c1_amended simAll 3 100 (by decide) (by decide) (by decide)⟩

/-- The minimum of a list of naturals (`min(indices)`; 0 on the empty
list, which does not occur in the pipeline). -/
def minL : List ℕ → ℕ
  | [] => 0
  | a :: l => l.foldl Nat.min a

lemma minL_foldl (l : List ℕ) : ∀ b : ℕ,
    l.foldl Nat.min b = if l = [] then b else Nat.min b (minL l) := by
  induction l with
  | nil => intro b; simp
  | cons c l ih =>
    intro b
    rw [if_neg (List.cons_ne_nil c l)]
    show l.foldl Nat.min (Nat.min b c) = Nat.min b (l.foldl Nat.min c)
    rw [ih (Nat.min b c), ih c]
    by_cases hl : l = []
    · rw [if_pos hl, if_pos hl]
    · rw [if_neg hl, if_neg hl]
      simp only [Nat.min_def]
      split_ifs <;> omega

lemma minL_le_of_mem : ∀ (l : List ℕ) (x : ℕ), x ∈ l → minL l ≤ x := by
  intro l
  induction l with
  | nil => intro x hx; simp at hx
  | cons a l ih =>
    intro x hx
    show l.foldl Nat.min a ≤ x
    rw [minL_foldl]
    rcases List.mem_cons.mp hx with rfl | hx1
    · by_cases hl : l = []
      · rw [if_pos hl]
      · rw [if_neg hl]; exact Nat.min_le_left _ _
    · have hl : l ≠ [] := List.ne_nil_of_mem hx1
      rw [if_neg hl]
      exact le_trans (Nat.min_le_right _ _) (ih x hx1)

lemma minL_mem : ∀ l : List ℕ, l ≠ [] → minL l ∈ l := by
  intro l
  induction l with
  | nil => intro h; exact absurd rfl h
  | cons a l ih =>
    intro _
    show l.foldl Nat.min a ∈ a :: l
    rw [minL_foldl]
    by_cases hl : l = []
    · rw [if_pos hl]; exact List.mem_cons_self _ _
    · rw [if_neg hl]
      rcases Nat.le_total a (minL l) with h | h
      · have he : Nat.min a (minL l) = a := by
          show a ⊓ minL l = a
          exact min_eq_left h
        rw [he]; exact List.mem_cons_self _ _
      · have he : Nat.min a (minL l) = minL l := by
          show a ⊓ minL l = minL l
          exact min_eq_right h
        rw [he]; exact List.mem_cons_of_mem _ (ih hl)

lemma minL_append (l l2 : List ℕ) (h1 : l ≠ []) (hle : minL l ≤ minL l2) :
    minL (l ++ l2) = minL l := by
  rcases l with _ | ⟨a, t⟩
  · exact absurd rfl h1
  · show (t ++ l2).foldl Nat.min a = minL (a :: t)
    rw [List.foldl_append]
    show l2.foldl Nat.min (minL (a :: t)) = minL (a :: t)
    rw [minL_foldl]
    by_cases hl2 : l2 = []
    · rw [if_pos hl2]
    · rw [if_neg hl2]
      show minL (a :: t) ⊓ minL l2 = minL (a :: t)
      exact min_eq_left hle

lemma sort_nonempty (v : List ℕ) (h : v ≠ []) :
    List.insertionSort (· ≤ ·) v ≠ [] := by
  intro hs
  have hp := List.perm_insertionSort (· ≤ ·) v
  rw [hs] at hp
  exact h (List.Perm.nil_eq hp).symm

lemma sort_headD_eq_minL (v : List ℕ) (h : v ≠ []) :
    (List.insertionSort (· ≤ ·) v).headD 0 = minL v := by
  have hp := List.perm_insertionSort (· ≤ ·) v
  have hs := List.sorted_insertionSort (· ≤ ·) v
  rcases hq : List.insertionSort (· ≤ ·) v with _ | ⟨a, t⟩
  · exact absurd hq (sort_nonempty v h)
  · rw [hq] at hp hs
    show a = minL v
    have hav : a ∈ v := hp.mem_iff.mp (List.mem_cons_self a t)
    have h1 : minL v ≤ a := minL_le_of_mem v a hav
    have h2 : a ≤ minL v := by
      have hmv : minL v ∈ a :: t := hp.mem_iff.mpr (minL_mem v h)
      rcases List.mem_cons.mp hmv with heq | hmt
      · omega
      · exact (List.sorted_cons.mp hs).1 _ hmt
    omega

lemma sorted_cons_le_getLastD : ∀ (t : List ℕ) (a d : ℕ),
    (a :: t).Sorted (· ≤ ·) → a ≤ (a :: t).getLastD d := by
  intro t
  induction t with
  | nil => intro a d _; simp [List.getLastD]
  | cons b t2 ih =>
    intro a d hs
    rw [List.getLastD_cons]
    have hab : a ≤ b := (List.sorted_cons.mp hs).1 b (List.mem_cons_self _ _)
    exact le_trans hab (ih b a (List.sorted_cons.mp hs).2)

lemma sort_headD_le_getLastD (v : List ℕ) :
    (List.insertionSort (· ≤ ·) v).headD 0 ≤
      (List.insertionSort (· ≤ ·) v).getLastD 0 := by
  have hs := List.sorted_insertionSort (· ≤ ·) v
  rcases hq : List.insertionSort (· ≤ ·) v with _ | ⟨a, t⟩
  · exact le_refl 0
  · rw [hq] at hs
    exact sorted_cons_le_getLastD t a 0 hs

lemma list_set_self {α : Type} : ∀ (l : List α) (i : ℕ) (h : i < l.length),
    l.set i (l.get ⟨i, h⟩) = l := by
  intro l
  induction l with
  | nil => intro i h; simp at h
  | cons a rest ih =>
    intro i h
    cases i with
    | zero => rfl
    | succ j => exact congrArg (List.cons a) (ih j (by simpa using h))

lemma dupExtend_eq_set : ∀ (l : List (ℕ × List ℕ)) (i : ℕ) (hi : i < l.length)
    (xs : List ℕ), (l.map Prod.fst).Nodup →
    dupExtend ((l.get ⟨i, hi⟩).1) xs l =
      l.set i ((l.get ⟨i, hi⟩).1, (l.get ⟨i, hi⟩).2 ++ xs) := by
  intro l
  induction l with
  | nil => intro i hi; simp at hi
  | cons q rest ih =>
    intro i hi xs hnd
    rw [List.map_cons] at hnd
    cases i with
    | zero =>
      show dupExtend q.1 xs (q :: rest) = (q.1, q.2 ++ xs) :: rest
      exact dupExtend_cons_pos q.1 xs q rest rfl
    | succ j =>
      have hj : j < rest.length := by simpa using hi
      have hkmem : (rest.get ⟨j, hj⟩).1 ∈ rest.map Prod.fst :=
        List.mem_map.mpr ⟨rest.get ⟨j, hj⟩, List.get_mem rest j hj, rfl⟩
      have hqne : ¬q.1 = (rest.get ⟨j, hj⟩).1 := by
        intro he
        exact (List.nodup_cons.mp hnd).1 (he ▸ hkmem)
      show dupExtend ((rest.get ⟨j, hj⟩).1) xs (q :: rest) =
        q :: rest.set j ((rest.get ⟨j, hj⟩).1, (rest.get ⟨j, hj⟩).2 ++ xs)
      rw [dupExtend_cons_neg _ _ _ _ hqne,
        ih j hj xs (List.nodup_cons.mp hnd).2]

lemma lookupD_get : ∀ (l : List (ℕ × List ℕ)) (i : ℕ) (hi : i < l.length),
    (l.map Prod.fst).Nodup →
    lookupD l ((l.get ⟨i, hi⟩).1) = (l.get ⟨i, hi⟩).2 := by
  intro l
  induction l with
  | nil => intro i hi; simp at hi
  | cons q rest ih =>
    intro i hi hnd
    rw [List.map_cons] at hnd
    cases i with
    | zero =>
      show lookupD (q :: rest) q.1 = q.2
      unfold lookupD
      rw [List.find?_cons_of_pos _ (by simp)]
    | succ j =>
      have hj : j < rest.length := by simpa using hi
      have hkmem : (rest.get ⟨j, hj⟩).1 ∈ rest.map Prod.fst :=
        List.mem_map.mpr ⟨rest.get ⟨j, hj⟩, List.get_mem rest j hj, rfl⟩
      have hqne : ¬(q.1 = (rest.get ⟨j, hj⟩).1) := by
        intro he
        exact (List.nodup_cons.mp hnd).1 (he ▸ hkmem)
      show lookupD (q :: rest) ((rest.get ⟨j, hj⟩).1) = (rest.get ⟨j, hj⟩).2
      unfold lookupD
      rw [List.find?_cons_of_neg _ (by simpa using hqne)]
      exact ih j hj (List.nodup_cons.mp hnd).2

lemma map_set_fst_self (l : List (ℕ × List ℕ)) (i : ℕ) (hi : i < l.length)
    (v : List ℕ) :
    (l.set i ((l.get ⟨i, hi⟩).1, v)).map Prod.fst = l.map Prod.fst := by
  rw [List.map_set]
  have he : Prod.fst ((l.get ⟨i, hi⟩).1, v) =
      (l.map Prod.fst).get ⟨i, by simpa using hi⟩ := by
    simp
  rw [he, list_set_self]

lemma map_set_minL_self (l : List (ℕ × List ℕ)) (i : ℕ) (hi : i < l.length)
    (k : ℕ) (v : List ℕ) (hmin : minL v = minL (l.get ⟨i, hi⟩).2) :
    (l.set i (k, v)).map (fun p => minL p.2) = l.map (fun p => minL p.2) := by
  rw [List.map_set]
  have he : minL (k, v).2 =
      (l.map (fun p => minL p.2)).get ⟨i, by simpa using hi⟩ := by
    show minL v = _
    rw [hmin]
    simp
  rw [he, list_set_self]

lemma consStep_mins (sim : String → String → ℚ) (thr : ℚ) (texts : List String)
    (dups0 : List (ℕ × List ℕ)) (st : ConsState) (nxt : ℕ)
    (hnd : (dups0.map Prod.fst).Nodup)
    (hpw : (dups0.map (fun p => minL p.2)).Pairwise (· < ·))
    (hfst : st.dups.map Prod.fst = dups0.map Prod.fst)
    (hmins : st.dups.map (fun p => minL p.2) = dups0.map (fun p => minL p.2))
    (hne : ∀ p ∈ st.dups, p.2 ≠ [])
    (hcur : st.curIdx < nxt) (hnxt : nxt < dups0.length) :
    (consStep sim thr texts (dups0.map Prod.fst) st nxt).dups.map Prod.fst
      = dups0.map Prod.fst ∧
    (consStep sim thr texts (dups0.map Prod.fst) st nxt).dups.map
      (fun p => minL p.2) = dups0.map (fun p => minL p.2) ∧
    (∀ p ∈ (consStep sim thr texts (dups0.map Prod.fst) st nxt).dups, p.2 ≠ []) ∧
    ((consStep sim thr texts (dups0.map Prod.fst) st nxt).curIdx = st.curIdx ∨
      (consStep sim thr texts (dups0.map Prod.fst) st nxt).curIdx = nxt) := by
  have hlen : st.dups.length = dups0.length := by
    have hc := congrArg List.length hfst
    simpa using hc
  have hcurlen : st.curIdx < st.dups.length := by omega
  have hnxtlen : nxt < st.dups.length := by omega
  have hndst : (st.dups.map Prod.fst).Nodup := by rw [hfst]; exact hnd
  have hpwst : (st.dups.map (fun p => minL p.2)).Pairwise (· < ·) := by
    rw [hmins]; exact hpw
  unfold consStep
  by_cases hsim : sim (texts.getD st.curIdx "") (texts.getD nxt "") > thr
  · rw [if_pos hsim]
    have hkc : (dups0.map Prod.fst).getD st.curIdx 0 =
        (st.dups.get ⟨st.curIdx, hcurlen⟩).1 := by
      rw [← hfst,
        List.getD_eq_getElem _ _ (by rw [List.length_map]; exact hcurlen)]
      simp
    have hkn : (dups0.map Prod.fst).getD nxt 0 =
        (st.dups.get ⟨nxt, hnxtlen⟩).1 := by
      rw [← hfst,
        List.getD_eq_getElem _ _ (by rw [List.length_map]; exact hnxtlen)]
      simp
    have hlook : lookupD st.dups ((dups0.map Prod.fst).getD nxt 0) =
        (st.dups.get ⟨nxt, hnxtlen⟩).2 := by
      rw [hkn]
      exact lookupD_get st.dups nxt hnxtlen hndst
    have hminlt : minL (st.dups.get ⟨st.curIdx, hcurlen⟩).2 <
        minL (st.dups.get ⟨nxt, hnxtlen⟩).2 := by
      have hp := List.pairwise_iff_getElem.mp hpwst st.curIdx nxt
        (by rw [List.length_map]; exact hcurlen)
        (by rw [List.length_map]; exact hnxtlen) hcur
      simpa using hp
    have hcne : (st.dups.get ⟨st.curIdx, hcurlen⟩).2 ≠ [] :=
      hne _ (List.get_mem st.dups st.curIdx hcurlen)
    have hext : dupExtend ((dups0.map Prod.fst).getD st.curIdx 0)
        (lookupD st.dups ((dups0.map Prod.fst).getD nxt 0)) st.dups =
        st.dups.set st.curIdx ((st.dups.get ⟨st.curIdx, hcurlen⟩).1,
          (st.dups.get ⟨st.curIdx, hcurlen⟩).2 ++
            (st.dups.get ⟨nxt, hnxtlen⟩).2) := by
      rw [hkc, hlook]
      exact dupExtend_eq_set st.dups st.curIdx hcurlen _ hndst
    have happmin : minL ((st.dups.get ⟨st.curIdx, hcurlen⟩).2 ++
        (st.dups.get ⟨nxt, hnxtlen⟩).2) =
        minL (st.dups.get ⟨st.curIdx, hcurlen⟩).2 :=
      minL_append _ _ hcne (le_of_lt hminlt)
    refine ⟨?_, ?_, ?_, Or.inl rfl⟩
    · show (dupExtend _ _ st.dups).map Prod.fst = _
      rw [hext, map_set_fst_self st.dups st.curIdx hcurlen, hfst]
    · show (dupExtend _ _ st.dups).map (fun p => minL p.2) = _
      rw [hext, map_set_minL_self st.dups st.curIdx hcurlen _ _ happmin, hmins]
    · intro p hp
      have hp2 : p ∈ dupExtend ((dups0.map Prod.fst).getD st.curIdx 0)
          (lookupD st.dups ((dups0.map Prod.fst).getD nxt 0)) st.dups := hp
      rw [hext] at hp2
      rcases List.mem_or_eq_of_mem_set hp2 with h | h
      · exact hne p h
      · rw [h]
        simp only [ne_eq, List.append_eq_nil]
        intro hcon
        exact hcne hcon.1
  · rw [if_neg hsim]
    exact ⟨hfst, hmins, hne, Or.inr rfl⟩

lemma consSweep_fold_mins (sim : String → String → ℚ) (thr : ℚ)
    (texts : List String) (dups0 : List (ℕ × List ℕ))
    (hnd : (dups0.map Prod.fst).Nodup)
    (hpw : (dups0.map (fun p => minL p.2)).Pairwise (· < ·)) :
    ∀ (m k : ℕ) (st : ConsState),
      st.dups.map Prod.fst = dups0.map Prod.fst →
      st.dups.map (fun p => minL p.2) = dups0.map (fun p => minL p.2) →
      (∀ p ∈ st.dups, p.2 ≠ []) →
      st.curIdx < k → k + m ≤ dups0.length →
      ((List.range' k m).foldl (consStep sim thr texts (dups0.map Prod.fst))
          st).dups.map Prod.fst = dups0.map Prod.fst ∧
      ((List.range' k m).foldl (consStep sim thr texts (dups0.map Prod.fst))
          st).dups.map (fun p => minL p.2) = dups0.map (fun p => minL p.2) ∧
      (∀ p ∈ ((List.range' k m).foldl
          (consStep sim thr texts (dups0.map Prod.fst)) st).dups, p.2 ≠ []) := by
  intro m
  induction m with
  | zero => intro k st h1 h2 h3 _ _; exact ⟨h1, h2, h3⟩
  | succ n ih =>
    intro k st h1 h2 h3 hcur hlen
    rw [List.range'_succ, List.foldl_cons]
    obtain ⟨s1, s2, s3, s4⟩ := consStep_mins sim thr texts dups0 st k hnd hpw
      h1 h2 h3 hcur (by omega)
    refine ih (k + 1) _ s1 s2 s3 ?_ (by omega)
    rcases s4 with h | h <;> omega

/-- The elements of a list whose positions (starting at `i`) are not in
`inv` — the surviving positions of the consolidation sweep. -/
def pickAux {α : Type} (inv : List ℕ) : ℕ → List α → List α
  | _, [] => []
  | i, x :: xs =>
    if i ∈ inv then pickAux inv (i + 1) xs else x :: pickAux inv (i + 1) xs

/-- The subtitle entry built from a run `(key, indices)` and its text:
`[key, frameToTime(min), frameToTime(max), text]` after sorting. -/
def entryOf (timeF : ℕ → ℚ) (t : String) (kv : ℕ × List ℕ) :
    ℕ × ℚ × ℚ × String :=
  (kv.1, timeF ((List.insertionSort (· ≤ ·) kv.2).headD 0),
    timeF ((List.insertionSort (· ≤ ·) kv.2).getLastD 0), t)

lemma extractAux_zip (timeF : ℕ → ℚ) (inv : List ℕ) :
    ∀ (ds : List (ℕ × List ℕ)) (ts : List String) (i : ℕ),
      ds.length + i = ts.length →
      extractAux timeF ts inv i ds =
        (pickAux inv i ((ts.drop i).zip ds)).map
          (fun p => entryOf timeF p.1 p.2) := by
  intro ds
  induction ds with
  | nil => intro ts i _; simp [extractAux, pickAux]
  | cons kv rest ih =>
    intro ts i hlen
    have hi : i < ts.length := by
      rw [List.length_cons] at hlen
      omega
    have hdrop : ts.drop i = ts[i] :: ts.drop (i + 1) :=
      List.drop_eq_getElem_cons hi
    rw [hdrop, List.zip_cons_cons]
    unfold extractAux pickAux
    by_cases hmem : i ∈ inv
    · rw [if_pos hmem, if_pos hmem]
      exact ih ts (i + 1) (by rw [List.length_cons] at hlen; omega)
    · rw [if_neg hmem, if_neg hmem, List.map_cons]
      rw [ih ts (i + 1) (by rw [List.length_cons] at hlen; omega)]
      show (kv.1, _, _, ts.getD i "") :: _ = entryOf timeF ts[i] kv :: _
      rw [List.getD_eq_getElem ts "" hi]
      rfl

lemma pickAux_sublist {α : Type} (inv : List ℕ) :
    ∀ (i : ℕ) (l : List α), (pickAux inv i l).Sublist l := by
  intro i l
  induction l generalizing i with
  | nil => exact List.Sublist.refl []
  | cons x xs ih =>
    unfold pickAux
    by_cases hmem : i ∈ inv
    · rw [if_pos hmem]
      exact List.Sublist.cons x (ih (i + 1))
    · rw [if_neg hmem]
      exact List.Sublist.cons₂ x (ih (i + 1))

lemma pairwise_zip_right {α β : Type} (S : β → β → Prop) :
    ∀ (l1 : List α) (l2 : List β), l2.Pairwise S →
      (l1.zip l2).Pairwise (fun a b => S a.2 b.2) := by
  intro l1
  induction l1 with
  | nil => intro l2 _; exact List.Pairwise.nil
  | cons x xs ih =>
    intro l2 hp
    cases l2 with
    | nil => exact List.Pairwise.nil
    | cons y ys =>
      rw [List.zip_cons_cons]
      refine List.Pairwise.cons ?_ (ih ys (List.pairwise_cons.mp hp).2)
      intro b hb
      have hb2 : b.2 ∈ ys := (List.of_mem_zip (by simpa using hb)).2
      exact (List.pairwise_cons.mp hp).1 b.2 hb2

/-- C7 counterexample: with the constant (hence monotonically
non-decreasing) frame-to-time map, two distinct runs with dissimilar
texts produce two entries with equal `startTime`, so the output is not
strictly increasing by `startTime`: non-decreasing `frameToTime` does
not suffice for the claimed strictness. -/
theorem c7_counterexample :
    get_subtitles calc_str_similar (mkRat 3 5) (fun _ => (0 : ℚ)) ["A", "B"]
      [(0, [1]), (5, [6])] = [(0, 0, 0, "A"), (5, 0, 0, "B")] ∧
    ¬ List.Pairwise (fun (a b : ℕ × ℚ × ℚ × String) => a.2.1 < b.2.1)
      (get_subtitles calc_str_similar (mkRat 3 5) (fun _ => (0 : ℚ)) ["A", "B"]
        [(0, [1]), (5, [6])]) := by
  have he : get_subtitles calc_str_similar (mkRat 3 5) (fun _ => (0 : ℚ))
      ["A", "B"] [(0, [1]), (5, [6])] = [(0, 0, 0, "A"), (5, 0, 0, "B")] := by
    decide
  refine ⟨he, ?_⟩
  intro hp
  rw [he] at hp
  have h1 := (List.pairwise_cons.mp hp).1 (5, 0, 0, "B") (List.mem_cons_self _ _)
  exact absurd h1 (lt_irrefl (0 : ℚ))

/-- C7 amended: for consolidation input with as many runs as texts,
distinct keys, nonempty index lists whose minima strictly increase in
run order, and a strictly increasing frame-to-time map (non-decreasing
is not enough, see the counterexample), every output entry satisfies
`startTime <= endTime` and the entries are strictly increasing by
`startTime`. -/
theorem c7_amended (sim : String → String → ℚ) (timeF : ℕ → ℚ) (thr : ℚ)
    (texts : List String) (dups : List (ℕ × List ℕ))
    (hlen : dups.length = texts.length)
    (hnodup : (dups.map Prod.fst).Nodup)
    (hne : ∀ p ∈ dups, p.2 ≠ [])
    (hmins : (dups.map (fun p => minL p.2)).Pairwise (· < ·))
    (hstrict : ∀ i j : ℕ, i < j → timeF i < timeF j) :
    (∀ en ∈ get_subtitles sim thr timeF texts dups, en.2.1 ≤ en.2.2.1) ∧
    (get_subtitles sim thr timeF texts dups).Pairwise
      (fun a b => a.2.1 < b.2.1) := by
  have hmono : ∀ i j : ℕ, i ≤ j → timeF i ≤ timeF j := by
    intro i j h
    rcases Nat.lt_or_ge i j with h1 | h1
    · exact le_of_lt (hstrict _ _ h1)
    · have he : i = j := by omega
      rw [he]
  have hsw : ((consSweep sim thr texts dups).dups.map Prod.fst
        = dups.map Prod.fst) ∧
      ((consSweep sim thr texts dups).dups.map (fun p => minL p.2)
        = dups.map (fun p => minL p.2)) ∧
      (∀ p ∈ (consSweep sim thr texts dups).dups, p.2 ≠ []) := by
    rcases Nat.eq_zero_or_pos texts.length with h0 | hpos
    · unfold consSweep
      rw [h0]
      exact ⟨rfl, rfl, hne⟩
    · unfold consSweep
      exact consSweep_fold_mins sim thr texts dups hnodup hmins
        (texts.length - 1) 1 ⟨dups, [], 0⟩ rfl rfl hne Nat.zero_lt_one
        (by omega)
  have hDlen : (consSweep sim thr texts dups).dups.length = texts.length := by
    have hc := congrArg List.length hsw.1
    simp only [List.length_map] at hc
    omega
  have hzip := extractAux_zip timeF (consSweep sim thr texts dups).invalid
    (consSweep sim thr texts dups).dups texts 0 (by omega)
  rw [List.drop_zero] at hzip
  have hout : get_subtitles sim thr timeF texts dups =
      (pickAux (consSweep sim thr texts dups).invalid 0
        (texts.zip (consSweep sim thr texts dups).dups)).map
        (fun p => entryOf timeF p.1 p.2) := hzip
  constructor
  · intro en hen
    rw [hout] at hen
    rcases List.mem_map.mp hen with ⟨p, _, hpe⟩
    rw [← hpe]
    exact hmono _ _ (sort_headD_le_getLastD p.2.2)
  · rw [hout, List.pairwise_map]
    have hm2 : ((consSweep sim thr texts dups).dups.map
        (fun p => minL p.2)).Pairwise (· < ·) := by
      rw [hsw.2.1]; exact hmins
    have hpD : (consSweep sim thr texts dups).dups.Pairwise
        (fun p q => minL p.2 < minL q.2) := List.pairwise_map.mp hm2
    have hpz : (texts.zip (consSweep sim thr texts dups).dups).Pairwise
        (fun a b => minL a.2.2 < minL b.2.2) :=
      pairwise_zip_right _ texts _ hpD
    have hppick := List.Pairwise.sublist
      (pickAux_sublist (consSweep sim thr texts dups).invalid 0 _) hpz
    refine List.Pairwise.imp_of_mem ?_ hppick
    intro a b ha hb hr
    have haz : a ∈ texts.zip (consSweep sim thr texts dups).dups :=
      (pickAux_sublist _ 0 _).subset ha
    have hbz : b ∈ texts.zip (consSweep sim thr texts dups).dups :=
      (pickAux_sublist _ 0 _).subset hb
    have haD : a.2 ∈ (consSweep sim thr texts dups).dups :=
      (List.of_mem_zip (by simpa using haz)).2
    have hbD : b.2 ∈ (consSweep sim thr texts dups).dups :=
      (List.of_mem_zip (by simpa using hbz)).2
    show timeF ((List.insertionSort (· ≤ ·) a.2.2).headD 0) <
      timeF ((List.insertionSort (· ≤ ·) b.2.2).headD 0)
    rw [sort_headD_eq_minL _ (hsw.2.2 _ haD),
      sort_headD_eq_minL _ (hsw.2.2 _ hbD)]
    exact hstrict _ _ hr

/-- C7 witness: the amended ordering theorem applied to two runs with
texts `A`, `B` at `fps = 30`. -/
theorem c7_witness :
    (([(0, [1]), (5, [6])] : List (ℕ × List ℕ)).length =
      (["A", "B"] : List String).length) ∧
    ((∀ en ∈ get_subtitles calc_str_similar (mkRat 3 5) (frameTime 30)
        ["A", "B"] [(0, [1]), (5, [6])], en.2.1 ≤ en.2.2.1) ∧
      (get_subtitles calc_str_similar (mkRat 3 5) (frameTime 30) ["A", "B"]
        [(0, [1]), (5, [6])]).Pairwise (fun a b => a.2.1 < b.2.1)) := by
  have hstrictW : ∀ i j : ℕ, i < j → frameTime 30 i < frameTime 30 j := by
    intro i j h
    unfold frameTime
    rw [Rat.mkRat_eq_div, Rat.mkRat_eq_div]
    rw [div_lt_div_iff₀ (by norm_num) (by norm_num)]
    have hij : (i : ℚ) < j := by exact_mod_cast h
    exact (mul_lt_mul_right (by norm_num)).mpr hij
  have hmins : (([(0, [1]), (5, [6])] : List (ℕ × List ℕ)).map
      (fun p => minL p.2)).Pairwise (· < ·) := by
    refine List.Pairwise.cons ?_ (List.pairwise_singleton _ _)
    intro b hb
    rw [List.mem_singleton.mp hb]
    show minL [1] < minL [6]
    decide
  exact ⟨rfl, c7_amended calc_str_similar (frameTime 30) (mkRat 3 5)
    ["A", "B"] [(0, [1]), (5, [6])] rfl (by decide) (by decide) hmins hstrictW⟩

lemma pickAux_cons_mem {α : Type} (inv : List ℕ) (i : ℕ) (x : α) (xs : List α)
    (h : i ∈ inv) : pickAux inv i (x :: xs) = pickAux inv (i + 1) xs := by
  show (if i ∈ inv then pickAux inv (i + 1) xs else x :: pickAux inv (i + 1) xs)
      = pickAux inv (i + 1) xs
  rw [if_pos h]

lemma pickAux_cons_not_mem {α : Type} (inv : List ℕ) (i : ℕ) (x : α)
    (xs : List α) (h : i ∉ inv) :
    pickAux inv i (x :: xs) = x :: pickAux inv (i + 1) xs := by
  show (if i ∈ inv then pickAux inv (i + 1) xs else x :: pickAux inv (i + 1) xs)
      = x :: pickAux inv (i + 1) xs
  rw [if_neg h]

lemma pickAux_nil_inv {α : Type} : ∀ (i : ℕ) (l : List α), pickAux [] i l = l := by
  intro i l
  induction l generalizing i with
  | nil => rfl
  | cons x xs ih =>
    rw [pickAux_cons_not_mem [] i x xs (by simp)]
    rw [ih (i + 1)]

lemma pickAux_zip {α β : Type} (inv : List ℕ) :
    ∀ (l1 : List α) (l2 : List β) (i : ℕ), l1.length = l2.length →
      pickAux inv i (l1.zip l2) = (pickAux inv i l1).zip (pickAux inv i l2) := by
  intro l1
  induction l1 with
  | nil =>
    intro l2 i h
    cases l2 with
    | nil => rfl
    | cons y ys => simp at h
  | cons x xs ih =>
    intro l2 i h
    cases l2 with
    | nil => simp at h
    | cons y ys =>
      rw [List.zip_cons_cons]
      by_cases hm : i ∈ inv
      · rw [pickAux_cons_mem inv i _ _ hm, pickAux_cons_mem inv i _ _ hm,
          pickAux_cons_mem inv i _ _ hm]
        exact ih ys (i + 1) (by simpa using h)
      · rw [pickAux_cons_not_mem inv i _ _ hm, pickAux_cons_not_mem inv i _ _ hm,
          pickAux_cons_not_mem inv i _ _ hm, List.zip_cons_cons]
        rw [ih ys (i + 1) (by simpa using h)]

lemma pickAux_length_congr {α β : Type} (inv : List ℕ) :
    ∀ (l1 : List α) (l2 : List β) (i : ℕ), l1.length = l2.length →
      (pickAux inv i l1).length = (pickAux inv i l2).length := by
  intro l1
  induction l1 with
  | nil =>
    intro l2 i h
    cases l2 with
    | nil => rfl
    | cons y ys => simp at h
  | cons x xs ih =>
    intro l2 i h
    cases l2 with
    | nil => simp at h
    | cons y ys =>
      by_cases hm : i ∈ inv
      · rw [pickAux_cons_mem inv i _ _ hm, pickAux_cons_mem inv i _ _ hm]
        exact ih ys (i + 1) (by simpa using h)
      · rw [pickAux_cons_not_mem inv i _ _ hm, pickAux_cons_not_mem inv i _ _ hm]
        simpa using ih ys (i + 1) (by simpa using h)

/-- The surviving positions below `n`: positions of `[0, n)` that are
not in the invalid list. -/
def survP (inv : List ℕ) (n : ℕ) : List ℕ :=
  (List.range' 0 n).filter (fun j => decide (j ∉ inv))

lemma survP_succ_of_mem (inv : List ℕ) (k : ℕ) (h : k ∈ inv) :
    survP inv (k + 1) = survP inv k := by
  unfold survP
  rw [List.range'_concat, List.filter_append]
  simp [h]

lemma survP_succ_of_not_mem (inv : List ℕ) (k : ℕ) (h : k ∉ inv) :
    survP inv (k + 1) = survP inv k ++ [k] := by
  unfold survP
  rw [List.range'_concat, List.filter_append]
  simp [h]

lemma survP_append_ge (inv : List ℕ) (v n : ℕ) (hvn : n ≤ v) :
    survP (inv ++ [v]) n = survP inv n := by
  unfold survP
  apply List.filter_congr
  intro j hj
  rw [List.mem_range'_1] at hj
  have hne : j ≠ v := by omega
  rw [decide_eq_decide]
  simp [List.mem_append, hne]

lemma pickAux_eq_filter_map {α : Type} (d : α) (inv : List ℕ) :
    ∀ (l : List α) (i : ℕ),
      pickAux inv i l = ((List.range' i l.length).filter
          (fun j => decide (j ∉ inv))).map (fun j => l.getD (j - i) d) := by
  intro l
  induction l with
  | nil => intro i; simp [pickAux]
  | cons x xs ih =>
    intro i
    rw [List.length_cons, List.range'_succ, List.filter_cons]
    by_cases hm : i ∈ inv
    · rw [pickAux_cons_mem inv i _ _ hm]
      have hcond : ¬(decide (i ∉ inv) = true) := by simp [hm]
      rw [if_neg hcond, ih (i + 1)]
      apply List.map_congr_left
      intro j hj
      have hj2 := List.mem_range'_1.mp (List.mem_of_mem_filter hj)
      rw [show j - i = (j - (i + 1)) + 1 from by omega, List.getD_cons_succ]
    · rw [pickAux_cons_not_mem inv i _ _ hm]
      have hcond : decide (i ∉ inv) = true := by simp [hm]
      rw [if_pos hcond, List.map_cons]
      congr 1
      · rw [Nat.sub_self, List.getD_cons_zero]
      · rw [ih (i + 1)]
        apply List.map_congr_left
        intro j hj
        have hj2 := List.mem_range'_1.mp (List.mem_of_mem_filter hj)
        rw [show j - i = (j - (i + 1)) + 1 from by omega, List.getD_cons_succ]

lemma sweep_adjacency (sim : String → String → ℚ) (thr : ℚ)
    (texts : List String) (keys : List ℕ) :
    ∀ (m k : ℕ) (st : ConsState),
      st.curIdx < k →
      st.curIdx ∉ st.invalid →
      (∀ x ∈ st.invalid, x < k) →
      (survP st.invalid k).getLast? = some st.curIdx →
      List.Chain' (fun a b => ¬(sim (texts.getD a "") (texts.getD b "") > thr))
        (survP st.invalid k) →
      (∀ x ∈ ((List.range' k m).foldl (consStep sim thr texts keys) st).invalid,
        x < k + m) ∧
      (survP ((List.range' k m).foldl (consStep sim thr texts keys) st).invalid
          (k + m)).getLast? =
        some ((List.range' k m).foldl (consStep sim thr texts keys) st).curIdx ∧
      List.Chain' (fun a b => ¬(sim (texts.getD a "") (texts.getD b "") > thr))
        (survP ((List.range' k m).foldl (consStep sim thr texts keys) st).invalid
          (k + m)) := by
  intro m
  induction m with
  | zero =>
    intro k st _ _ h3 h4 h5
    rw [Nat.add_zero]
    exact ⟨h3, h4, h5⟩
  | succ n ih =>
    intro k st h1 h2 h3 h4 h5
    rw [List.range'_succ, List.foldl_cons]
    have hgoal : k + (n + 1) = (k + 1) + n := by omega
    rw [hgoal]
    unfold consStep
    by_cases hsim : sim (texts.getD st.curIdx "") (texts.getD k "") > thr
    · rw [if_pos hsim]
      have hkinv : k ∈ st.invalid ++ [k] := List.mem_append.mpr (Or.inr (by simp))
      have hsurv : survP (st.invalid ++ [k]) (k + 1) = survP st.invalid k := by
        rw [survP_succ_of_mem _ _ hkinv, survP_append_ge _ _ _ (le_refl k)]
      refine ih (k + 1)
        ⟨dupExtend (keys.getD st.curIdx 0)
            (lookupD st.dups (keys.getD k 0)) st.dups,
          st.invalid ++ [k], st.curIdx⟩
        (by show st.curIdx < k + 1; omega) ?_ ?_ ?_ ?_
      · show st.curIdx ∉ st.invalid ++ [k]
        rw [List.mem_append]
        rintro (h | h)
        · exact h2 h
        · rw [List.mem_singleton] at h
          omega
      · show ∀ x ∈ st.invalid ++ [k], x < k + 1
        intro x hx
        rcases List.mem_append.mp hx with h | h
        · have := h3 x h
          omega
        · rw [List.mem_singleton] at h
          omega
      · show (survP (st.invalid ++ [k]) (k + 1)).getLast? = some st.curIdx
        rw [hsurv]
        exact h4
      · show List.Chain' _ (survP (st.invalid ++ [k]) (k + 1))
        rw [hsurv]
        exact h5
    · rw [if_neg hsim]
      have hknotinv : k ∉ st.invalid := by
        intro h
        have := h3 k h
        omega
      have hsurv : survP st.invalid (k + 1) = survP st.invalid k ++ [k] :=
        survP_succ_of_not_mem _ _ hknotinv
      refine ih (k + 1) ⟨st.dups, st.invalid, k⟩
        (by show k < k + 1; omega)
        (by show k ∉ st.invalid; exact hknotinv)
        (by show ∀ x ∈ st.invalid, x < k + 1; intro x hx; have := h3 x hx; omega)
        ?_ ?_
      · show (survP st.invalid (k + 1)).getLast? = some k
        rw [hsurv]
        exact List.getLast?_concat _
      · show List.Chain' _ (survP st.invalid (k + 1))
        rw [hsurv]
        refine List.chain'_append.mpr ⟨h5, List.chain'_singleton k, ?_⟩
        intro x hx y hy
        rw [h4] at hx
        rw [Option.mem_some_iff] at hx
        have hy2 : k = y := by simpa using hy
        rw [← hx, ← hy2]
        exact hsim

lemma nomerge_fold (sim : String → String → ℚ) (thr : ℚ)
    (texts2 : List String) (keys2 : List ℕ)
    (hadj : ∀ j, j + 1 < texts2.length →
      ¬(sim (texts2.getD j "") (texts2.getD (j + 1) "") > thr)) :
    ∀ (m k : ℕ) (D : List (ℕ × List ℕ)) (inv : List ℕ),
      1 ≤ k → k + m ≤ texts2.length →
      (List.range' k m).foldl (consStep sim thr texts2 keys2) ⟨D, inv, k - 1⟩ =
        ⟨D, inv, k + m - 1⟩ := by
  intro m
  induction m with
  | zero => intro k D inv _ _; rw [Nat.add_zero]; rfl
  | succ n ih =>
    intro k D inv hk hlen
    rw [List.range'_succ, List.foldl_cons]
    have h1 := hadj (k - 1) (by omega)
    rw [show k - 1 + 1 = k from by omega] at h1
    have hstep : consStep sim thr texts2 keys2 ⟨D, inv, k - 1⟩ k =
        ⟨D, inv, k⟩ := by
      unfold consStep
      rw [if_neg h1]
    rw [hstep]
    have hrec := ih (k + 1) D inv (by omega) (by omega)
    rw [show k + 1 - 1 = k from by omega] at hrec
    rw [hrec, show k + 1 + n - 1 = k + (n + 1) - 1 from by omega]

lemma getD_map_get {α β : Type} (f : α → β) (d : β) (l : List α) (j : ℕ)
    (h : j < l.length) : (l.map f).getD j d = f (l.get ⟨j, h⟩) := by
  rw [List.getD_eq_getElem _ _ (by simpa using h)]
  simp

lemma pickAux_zero_eq_map {α : Type} (d : α) (inv : List ℕ) (l : List α) :
    pickAux inv 0 l = (survP inv l.length).map (fun j => l.getD j d) := by
  rw [pickAux_eq_filter_map d inv l 0]
  unfold survP
  apply List.map_congr_left
  intro j _
  rw [Nat.sub_zero]

/-- A second consolidation pass over texts whose adjacent pairs are all
below the similarity threshold merges nothing: the output is the plain
row-by-row rendering of the input runs. -/
lemma consolidate_no_merge (sim : String → String → ℚ) (thr : ℚ)
    (timeF : ℕ → ℚ) (txs2 : List String) (D2 : List (ℕ × List ℕ))
    (hlen2 : D2.length = txs2.length) (hpos : 0 < txs2.length)
    (hadj : ∀ j, j + 1 < txs2.length →
      ¬(sim (txs2.getD j "") (txs2.getD (j + 1) "") > thr)) :
    get_subtitles sim thr timeF txs2 D2 =
      (txs2.zip D2).map (fun p => entryOf timeF p.1 p.2) := by
  have hsw2 : consSweep sim thr txs2 D2 =
      ⟨D2, [], 1 + (txs2.length - 1) - 1⟩ := by
    unfold consSweep
    exact nomerge_fold sim thr txs2 (D2.map Prod.fst) hadj
      (txs2.length - 1) 1 D2 [] (le_refl 1) (by omega)
  have hstep : get_subtitles sim thr timeF txs2 D2 =
      extractAux timeF txs2 [] 0 D2 := by
    show extractAux timeF txs2 (consSweep sim thr txs2 D2).invalid 0
        (consSweep sim thr txs2 D2).dups = _
    rw [hsw2]
  rw [hstep]
  have hz := extractAux_zip timeF [] D2 txs2 0 (by rw [Nat.add_zero]; exact hlen2)
  rw [List.drop_zero, pickAux_nil_inv] at hz
  exact hz

/-- C8. Idempotence of consolidation: feeding the consolidated output of
`get_subtitles` — the surviving texts together with the surviving runs
carrying their merged, sorted index sequences — back into `get_subtitles`
yields exactly the first pass's output sequence. -/
theorem c8_idempotent (sim : String → String → ℚ) (thr : ℚ) (timeF : ℕ → ℚ)
    (texts : List String) (dups : List (ℕ × List ℕ))
    (hlen : dups.length = texts.length) :
    get_subtitles sim thr timeF
      (pickAux (consSweep sim thr texts dups).invalid 0 texts)
      ((pickAux (consSweep sim thr texts dups).invalid 0
          (consSweep sim thr texts dups).dups).map
        (fun p => (p.1, List.insertionSort (· ≤ ·) p.2))) =
    get_subtitles sim thr timeF texts dups := by
  rcases Nat.eq_zero_or_pos texts.length with h0 | hn
  · have ht : texts = [] := List.eq_nil_of_length_eq_zero h0
    subst ht
    have hd : dups = [] := List.eq_nil_of_length_eq_zero hlen
    subst hd
    rfl
  · have hD1fst : (consSweep sim thr texts dups).dups.map Prod.fst =
        dups.map Prod.fst := consSweep_fst sim thr texts dups hlen
    have hD1len : (consSweep sim thr texts dups).dups.length = dups.length := by
      have h := congrArg List.length hD1fst
      simpa using h
    have hlen12 : (pickAux (consSweep sim thr texts dups).invalid 0
          (consSweep sim thr texts dups).dups).length =
        (pickAux (consSweep sim thr texts dups).invalid 0 texts).length :=
      pickAux_length_congr _ _ _ 0 (by rw [hD1len, hlen])
    have hsw := sweep_adjacency sim thr texts (dups.map Prod.fst)
      (texts.length - 1) 1 ⟨dups, [], 0⟩
      (by show 0 < 1; omega)
      (by show (0 : ℕ) ∉ ([] : List ℕ); simp)
      (by intro x hx; simp at hx)
      (by show (survP [] 1).getLast? = some 0; rfl)
      (by show List.Chain' _ (survP [] 1)
          rw [show survP [] 1 = [0] from rfl]
          exact List.chain'_singleton 0)
    have hfold : (List.range' 1 (texts.length - 1)).foldl
        (consStep sim thr texts (dups.map Prod.fst)) ⟨dups, [], 0⟩ =
        consSweep sim thr texts dups := rfl
    rw [hfold] at hsw
    obtain ⟨-, hlast, hchain⟩ := hsw
    rw [show 1 + (texts.length - 1) = texts.length from by omega]
      at hlast hchain
    have htx2 : pickAux (consSweep sim thr texts dups).invalid 0 texts =
        (survP (consSweep sim thr texts dups).invalid texts.length).map
          (fun j => texts.getD j "") :=
      pickAux_zero_eq_map "" _ texts
    have hsne : survP (consSweep sim thr texts dups).invalid texts.length
        ≠ [] := by
      intro h
      rw [h] at hlast
      simp at hlast
    have htx2pos :
        0 < (pickAux (consSweep sim thr texts dups).invalid 0 texts).length := by
      rw [htx2, List.length_map]
      exact List.length_pos.mpr hsne
    have hadj : ∀ j, j + 1 <
        (pickAux (consSweep sim thr texts dups).invalid 0 texts).length →
        ¬(sim ((pickAux (consSweep sim thr texts dups).invalid 0 texts).getD j "")
            ((pickAux (consSweep sim thr texts dups).invalid 0 texts).getD
              (j + 1) "") > thr) := by
      intro j hj
      rw [htx2] at hj ⊢
      rw [List.length_map] at hj
      rw [getD_map_get _ _ _ j (by omega), getD_map_get _ _ _ (j + 1) hj]
      exact List.chain'_iff_get.mp hchain j (by omega)
    rw [consolidate_no_merge sim thr timeF _ _
      (by rw [List.length_map]; exact hlen12) htx2pos hadj]
    have hrhs : get_subtitles sim thr timeF texts dups =
        extractAux timeF texts (consSweep sim thr texts dups).invalid 0
          (consSweep sim thr texts dups).dups := rfl
    rw [hrhs]
    have hz1 := extractAux_zip timeF (consSweep sim thr texts dups).invalid
      (consSweep sim thr texts dups).dups texts 0
      (by rw [Nat.add_zero, hD1len, hlen])
    rw [List.drop_zero] at hz1
    rw [hz1]
    rw [List.zip_map_right,
      ← pickAux_zip (consSweep sim thr texts dups).invalid texts
        (consSweep sim thr texts dups).dups 0 (by rw [hD1len, hlen]),
      List.map_map]
    apply List.map_congr_left
    intro p _
    show entryOf timeF p.1 (p.2.1, List.insertionSort (· ≤ ·) p.2.2) =
      entryOf timeF p.1 p.2
    unfold entryOf
    rw [List.Sorted.insertionSort_eq
      (List.sorted_insertionSort (· ≤ ·) p.2.2)]

theorem c8_witness :
    get_subtitles calc_str_similar (mkRat 6 10) (frameTime 30)
      (pickAux (consSweep calc_str_similar (mkRat 6 10)
          ["HELLO", "HELL0", "WORLD"] [(0, [1]), (5, [6]), (9, [10])]).invalid
        0 ["HELLO", "HELL0", "WORLD"])
      ((pickAux (consSweep calc_str_similar (mkRat 6 10)
            ["HELLO", "HELL0", "WORLD"] [(0, [1]), (5, [6]), (9, [10])]).invalid
          0 (consSweep calc_str_similar (mkRat 6 10)
            ["HELLO", "HELL0", "WORLD"] [(0, [1]), (5, [6]), (9, [10])]).dups).map
        (fun p => (p.1, List.insertionSort (· ≤ ·) p.2))) =
    get_subtitles calc_str_similar (mkRat 6 10) (frameTime 30)
      ["HELLO", "HELL0", "WORLD"] [(0, [1]), (5, [6]), (9, [10])] :=
  c8_idempotent calc_str_similar (mkRat 6 10) (frameTime 30)
    ["HELLO", "HELL0", "WORLD"] [(0, [1]), (5, [6]), (9, [10])] (by decide)
